import Mathlib

/-!
Verification of the Hopfield-network pseudo-random number generator
(`RandomNumber.ipynb`): a shallow embedding of `hopfield_prng` and
`hopfield_sha_prng` over exact rational arithmetic, with the external
collaborators (the uniform random source, the index-subset sampler and the
SHA-256 digest) injected as explicit parameters, as the design prescribes.
-/

namespace RandomNumber

/-- Embeds `np.fill_diagonal(T, np.diag(T) * 2)`: the diagonal of the freshly
drawn weight matrix is doubled, all other entries are kept. -/
def enhanceDiag (N : ℕ) (T : Fin N → Fin N → ℚ) : Fin N → Fin N → ℚ :=
  fun i j => if i = j then T i j * 2 else T i j

/-- Embeds the weight-perturbation line
`T = T + delta * np.triu(np.ones((N, N))) - delta * np.tril(np.ones((N, N)), -1)`:
`np.triu(ones)` is the indicator of `row ≤ col` and `np.tril(ones, -1)` the
indicator of `row > col`. -/
def perturb (N : ℕ) (delta : ℚ) (T : Fin N → Fin N → ℚ) : Fin N → Fin N → ℚ :=
  fun i j =>
    T i j + delta * (if (i : ℕ) ≤ (j : ℕ) then 1 else 0)
      - delta * (if (j : ℕ) < (i : ℕ) then 1 else 0)

/-- Embeds `np.dot(T, V)` (also written `T @ V`): the matrix-vector product. -/
def matVec (N : ℕ) (T : Fin N → Fin N → ℚ) (V : Fin N → ℚ) : Fin N → ℚ :=
  fun i => ∑ j, T i j * V j

/-- Embeds one sub-iteration of the neuron activation phase:
`U = np.dot(T, V) - I; V[idx] = np.tanh(b * U[idx])`. `U` is computed once
from the pre-update state; only the indices in `idx` are overwritten. The
activation `tanh` is a parameter (the IEEE hyperbolic tangent of the source,
abstracted to an arbitrary function on the exact scalars). -/
def subIter (tanh : ℚ → ℚ) (N : ℕ) (b : ℚ) (T : Fin N → Fin N → ℚ)
    (Iext : Fin N → ℚ) (idx : Finset (Fin N)) (V : Fin N → ℚ) : Fin N → ℚ :=
  fun i => if i ∈ idx then tanh (b * (matVec N T V i - Iext i)) else V i

/-- Embeds the inner loop `for _ in range(L)` of the neuron activation phase:
`L` sub-iterations, the `l`-th using the index subset `choiceStep l` drawn by
the external sampler `np.random.choice(N, size=N//2 + 1, replace=False)`. -/
def evolveV (tanh : ℚ → ℚ) (N L : ℕ) (b : ℚ) (T : Fin N → Fin N → ℚ)
    (Iext : Fin N → ℚ) (choiceStep : ℕ → Finset (Fin N)) (V : Fin N → ℚ) :
    Fin N → ℚ :=
  (List.range L).foldl (fun W l => subIter tanh N b T Iext (choiceStep l) W) V

/-- Embeds the random number extraction
`scaled = np.sum(np.tanh(T @ V)) / (L * N); fractional = (1000 * scaled) % 1`.
Python's `%` with a positive modulus returns `x - ⌊x⌋`, i.e. `Int.fract`. -/
def extract (tanh : ℚ → ℚ) (N L : ℕ) (T : Fin N → Fin N → ℚ)
    (V : Fin N → ℚ) : ℚ :=
  Int.fract (1000 * ((∑ i, tanh (matVec N T V i)) / ((L : ℚ) * (N : ℚ))))

/-- Outcome of the external uniform random source for one generator session:
the raw `np.random.uniform(-1, 1, (N, N))` matrix draw, the
`np.random.uniform(-1, 1, N)` state draw, and the subset drawn by
`np.random.choice` at output step `k`, sub-iteration `l`. A fixed seed of the
source determines this whole record. -/
structure RandomSource (N : ℕ) where
  initT : Fin N → Fin N → ℚ
  initV : Fin N → ℚ
  choice : ℕ → ℕ → Finset (Fin N)

/-- Embeds one iteration of the outer `for _ in range(num_outputs)` loop of
`hopfield_prng` acting on the pair (weight matrix, neuron state): first the
weight perturbation phase, then the neuron activation phase (which uses the
already-perturbed matrix and external input `I = np.zeros(N)`). `k` is the
output step index, used only to address the sampler's draws. -/
def stepTV (tanh : ℚ → ℚ) (N L : ℕ) (b delta : ℚ) (src : RandomSource N)
    (p : (Fin N → Fin N → ℚ) × (Fin N → ℚ)) (k : ℕ) :
    (Fin N → Fin N → ℚ) × (Fin N → ℚ) :=
  let T := perturb N delta p.1
  (T, evolveV tanh N L b T (fun _ => 0) (src.choice k) p.2)

/-- The (matrix, state) pair after `k` output steps of `hopfield_prng`,
starting from the initialization `T = uniform draw with doubled diagonal`,
`V = uniform draw`. -/
def stateAfter (tanh : ℚ → ℚ) (N L : ℕ) (b delta : ℚ) (src : RandomSource N)
    (k : ℕ) : (Fin N → Fin N → ℚ) × (Fin N → ℚ) :=
  (List.range k).foldl (stepTV tanh N L b delta src)
    (enhanceDiag N src.initT, src.initV)

/-- Embeds `hopfield_prng(num_outputs, N, L, b, delta)`. The `k`-th output
(0-based) is extracted from the matrix and state after `k + 1` loop
iterations. `num_outputs` is a Python `int`, so it is embedded as `ℤ`;
`range(num_outputs)` of a negative argument is empty, which is
`List.range num_outputs.toNat`. -/
def hopfield_prng (tanh : ℚ → ℚ) (N L : ℕ) (b delta : ℚ)
    (src : RandomSource N) (num_outputs : ℤ) : List ℚ :=
  (List.range num_outputs.toNat).map fun k =>
    let p := stateAfter tanh N L b delta src (k + 1)
    extract tanh N L p.1 p.2

/-- Embeds Python `int(...)` applied to a float/rational: truncation toward
zero. -/
def truncToInt (v : ℚ) : ℤ :=
  if 0 ≤ v then ⌊v⌋ else -⌊-v⌋

/-- Embeds `n.to_bytes(4, 'big')` for a non-negative `n < 2^32`: the four
big-endian base-256 digits. -/
def toBytesBE4 (n : ℕ) : List ℕ :=
  [n / 2 ^ 24 % 256, n / 2 ^ 16 % 256, n / 2 ^ 8 % 256, n % 256]

/-- Embeds the serialization line
`byte_data = b''.join(int(val * 10**9).to_bytes(4, 'big') for val in raw_sequence)`.
`to_bytes` accepts only non-negative ints (it raises `OverflowError`
otherwise); raw samples lie in `[0,1)` (`hopfield_prng_mem_Ico` below), so the
quantized value is non-negative and `Int.toNat` is exact on this code path. -/
def serializeBatch (batch : List ℚ) : List ℕ :=
  (batch.map fun v => toBytesBE4 (truncToInt (v * 10 ^ 9)).toNat).flatten

/-- Embeds `int.from_bytes(bs, 'big')`. -/
def fromBytesBE (bs : List ℕ) : ℕ :=
  bs.foldl (fun a b => 256 * a + b) 0

/-- Embeds the Python prefix slice `l[:n]` for an `int` `n`: the first `n`
elements when `n ≥ 0`, and all but the last `-n` elements when `n < 0`. -/
def pySlice {α : Type} (n : ℤ) (l : List α) : List α :=
  if 0 ≤ n then l.take n.toNat else l.take (l.length - (-n).toNat)

/-- Embeds the digest-conditioning line
`[int.from_bytes(hashed[i:i+4], 'big') / 2**32 for i in range(0, len(hashed), 4)][:num_outputs]`:
`range(0, len, 4)` enumerates `⌈len / 4⌉` chunk starts `4*i`. -/
def conditionDigest (hashed : List ℕ) (num_outputs : ℤ) : List ℚ :=
  pySlice num_outputs <|
    (List.range ((hashed.length + 3) / 4)).map fun i =>
      (fromBytesBE ((hashed.drop (4 * i)).take 4) : ℚ) / 2 ^ 32

/-- Embeds `hopfield_sha_prng(num_outputs)`: generate the raw Hopfield
sequence, serialize it, hash it with the external SHA-256 collaborator,
and reinterpret the digest as normalized 4-byte big-endian integers. The
notebook calls `hopfield_prng(num_outputs)` with its default configuration
`N=100, L=10, b=0.1, delta=0.01`; the configuration is kept as a parameter
here, exactly as `generate(numOutputs, config)` of the design. -/
def hopfield_sha_prng (sha256 : List ℕ → List ℕ) (tanh : ℚ → ℚ) (N L : ℕ)
    (b delta : ℚ) (src : RandomSource N) (num_outputs : ℤ) : List ℚ :=
  let raw_sequence := hopfield_prng tanh N L b delta src num_outputs
  let byte_data := serializeBatch raw_sequence
  conditionDigest (sha256 byte_data) num_outputs

/-- Sum of the entries of `T` on or above the diagonal (`row ≤ col`). -/
def upperSum (N : ℕ) (T : Fin N → Fin N → ℚ) : ℚ :=
  ∑ p : Fin N × Fin N, if (p.1 : ℕ) ≤ (p.2 : ℕ) then T p.1 p.2 else 0

/-- Sum of the entries of `T` strictly below the diagonal (`row > col`). -/
def lowerSum (N : ℕ) (T : Fin N → Fin N → ℚ) : ℚ :=
  ∑ p : Fin N × Fin N, if (p.2 : ℕ) < (p.1 : ℕ) then T p.1 p.2 else 0

/-- The quantity tracked by the Weight Matrix Evolver invariant: sum of the
`row ≤ col` entries minus sum of the `row > col` entries. -/
def triDiff (N : ℕ) (T : Fin N → Fin N → ℚ) : ℚ :=
  upperSum N T - lowerSum N T

/-- Concrete stand-in for the activation collaborator, used to evaluate the
generator at concrete inputs: the constant-zero activation. -/
def tanhZ : ℚ → ℚ := fun _ => 0

/-- Concrete stand-in for the SHA-256 collaborator, used to evaluate the
conditioned generator at concrete inputs: it has the collaborator's
interface type and always returns a 32-byte digest. -/
def shaZ : List ℕ → List ℕ := fun _ => List.replicate 32 0

/-- Concrete outcome of the random source for a session with `N = 1`:
zero draws, and the sampler always returns the subset `{0}` of size
`1 = 1 / 2 + 1`. -/
def srcZ : RandomSource 1 :=
  ⟨fun _ _ => 0, fun _ => 0, fun _ _ => {0}⟩

/-- Concrete outcome of the random source for a session with `N = 2`:
zero draws, and the sampler always returns the full subset of size
`2 = 2 / 2 + 1`. -/
def srcZ2 : RandomSource 2 :=
  ⟨fun _ _ => 0, fun _ => 0, fun _ _ => Finset.univ⟩

/-! Helper lemmas shared by the claim theorems. -/

lemma stateAfter_succ (tanh : ℚ → ℚ) (N L : ℕ) (b delta : ℚ)
    (src : RandomSource N) (k : ℕ) :
    stateAfter tanh N L b delta src (k + 1)
      = stepTV tanh N L b delta src (stateAfter tanh N L b delta src k) k := by
  unfold stateAfter
  rw [List.range_succ, List.foldl_append, List.foldl_cons, List.foldl_nil]

lemma length_hopfield_prng (tanh : ℚ → ℚ) (N L : ℕ) (b delta : ℚ)
    (src : RandomSource N) (n : ℤ) :
    (hopfield_prng tanh N L b delta src n).length = n.toNat := by
  simp [hopfield_prng]

lemma hopfield_prng_getElem (tanh : ℚ → ℚ) (N L : ℕ) (b delta : ℚ)
    (src : RandomSource N) (n : ℤ) (k : ℕ)
    (hk : k < (hopfield_prng tanh N L b delta src n).length) :
    (hopfield_prng tanh N L b delta src n)[k]
      = extract tanh N L (stateAfter tanh N L b delta src (k + 1)).1
          (stateAfter tanh N L b delta src (k + 1)).2 := by
  simp [hopfield_prng]

lemma extract_mem_Ico (tanh : ℚ → ℚ) (N L : ℕ) (T : Fin N → Fin N → ℚ)
    (V : Fin N → ℚ) : 0 ≤ extract tanh N L T V ∧ extract tanh N L T V < 1 :=
  ⟨Int.fract_nonneg _, Int.fract_lt_one _⟩

lemma hopfield_prng_mem_Ico (tanh : ℚ → ℚ) (N L : ℕ) (b delta : ℚ)
    (src : RandomSource N) (n : ℤ) :
    ∀ x ∈ hopfield_prng tanh N L b delta src n, 0 ≤ x ∧ x < 1 := by
  intro x hx
  simp only [hopfield_prng, List.mem_map] at hx
  obtain ⟨k, -, rfl⟩ := hx
  exact extract_mem_Ico ..

lemma length_toBytesBE4 (n : ℕ) : (toBytesBE4 n).length = 4 := rfl

lemma serializeBatch_cons (v : ℚ) (t : List ℚ) :
    serializeBatch (v :: t)
      = toBytesBE4 (truncToInt (v * 10 ^ 9)).toNat ++ serializeBatch t := by
  simp [serializeBatch]

lemma length_serializeBatch (batch : List ℚ) :
    (serializeBatch batch).length = 4 * batch.length := by
  induction batch with
  | nil => rfl
  | cons v t ih =>
    rw [serializeBatch_cons, List.length_append, length_toBytesBE4, ih,
        List.length_cons]
    omega

lemma serializeBatch_block (batch : List ℚ) (i : ℕ) (hi : i < batch.length) :
    ((serializeBatch batch).drop (4 * i)).take 4
      = toBytesBE4 (truncToInt (batch.get ⟨i, hi⟩ * 10 ^ 9)).toNat := by
  induction batch generalizing i with
  | nil => simp at hi
  | cons v t ih =>
    cases i with
    | zero =>
      rw [serializeBatch_cons]
      simp [List.take_append_of_le_length, length_toBytesBE4]
    | succ i =>
      have h4 : 4 * (i + 1) = (toBytesBE4 (truncToInt (v * 10 ^ 9)).toNat).length + 4 * i := by
        rw [length_toBytesBE4]; omega
      rw [serializeBatch_cons, h4, List.drop_append, ih i (by simpa using hi)]
      rfl

lemma truncToInt_of_nonneg (v : ℚ) (h : 0 ≤ v) : truncToInt v = ⌊v⌋ := by
  simp [truncToInt, h]

lemma fromBytesBE_foldl_lt (bs : List ℕ) (h : ∀ y ∈ bs, y < 256) (a : ℕ) :
    bs.foldl (fun a b => 256 * a + b) a < 256 ^ bs.length * (a + 1) := by
  induction bs generalizing a with
  | nil => simp
  | cons b t ih =>
    have hb : b < 256 := h b (by simp)
    have ht := ih (fun y hy => h y (by simp [hy])) (256 * a + b)
    calc (b :: t).foldl (fun a b => 256 * a + b) a
        = t.foldl (fun a b => 256 * a + b) (256 * a + b) := by rw [List.foldl_cons]
      _ < 256 ^ t.length * (256 * a + b + 1) := ht
      _ ≤ 256 ^ t.length * (256 * (a + 1)) := by
          exact Nat.mul_le_mul_left _ (by omega)
      _ = 256 ^ (b :: t).length * (a + 1) := by
          rw [List.length_cons, pow_succ]; ring

lemma fromBytesBE_lt (bs : List ℕ) (h : ∀ y ∈ bs, y < 256) :
    fromBytesBE bs < 256 ^ bs.length := by
  simpa using fromBytesBE_foldl_lt bs h 0

lemma fromBytesBE_toBytesBE4 (n : ℕ) (h : n < 2 ^ 32) :
    fromBytesBE (toBytesBE4 n) = n := by
  simp only [fromBytesBE, toBytesBE4, List.foldl_cons, List.foldl_nil]
  omega

/-- Claim C3: for every fixed seed of the random source (embedded as the
`RandomSource` record the seed determines) and every fixed configuration
`(num_outputs, N, L, b, delta)`, two independent invocations of the
conditioned generator `hopfield_sha_prng` produce bit-identical output
sequences. -/
theorem generate_two_run_deterministic (sha256 : List ℕ → List ℕ)
    (tanh : ℚ → ℚ) (N L : ℕ) (b delta : ℚ) (s₁ s₂ : RandomSource N) (n : ℤ)
    (h : s₁ = s₂) :
    hopfield_sha_prng sha256 tanh N L b delta s₁ n
      = hopfield_sha_prng sha256 tanh N L b delta s₂ n := by
  rw [h]

theorem generate_two_run_deterministic_witness :
    srcZ = srcZ
      ∧ hopfield_sha_prng shaZ tanhZ 1 1 0 0 srcZ 1
          = hopfield_sha_prng shaZ tanhZ 1 1 0 0 srcZ 1 :=
  ⟨rfl, generate_two_run_deterministic shaZ tanhZ 1 1 0 0 srcZ srcZ 1 rfl⟩

/-- Claim C5: the raw sample of every output step equals
`Int.fract ((∑ tanh ((T·V) i)) / (L * N) * 1000)` computed from the
post-evolution matrix and state, and — `Int.fract` being the non-negative
mathematical modulo by 1 — every raw sample lies in `[0, 1)`. -/
theorem raw_sample_fract_formula (tanh : ℚ → ℚ) (N L : ℕ) (b delta : ℚ)
    (src : RandomSource N) (n : ℤ) (k : ℕ)
    (hk : k < (hopfield_prng tanh N L b delta src n).length) :
    (hopfield_prng tanh N L b delta src n)[k]
        = Int.fract (((∑ i, tanh (matVec N (stateAfter tanh N L b delta src (k + 1)).1
              (stateAfter tanh N L b delta src (k + 1)).2 i)) / ((L : ℚ) * (N : ℚ))) * 1000)
      ∧ 0 ≤ (hopfield_prng tanh N L b delta src n)[k]
      ∧ (hopfield_prng tanh N L b delta src n)[k] < 1 := by
  rw [hopfield_prng_getElem tanh N L b delta src n k hk]
  exact ⟨by unfold extract; rw [mul_comm], (extract_mem_Ico ..).1, (extract_mem_Ico ..).2⟩

theorem raw_sample_fract_formula_witness :
    0 < (hopfield_prng tanhZ 1 1 0 0 srcZ 1).length
      ∧ ((hopfield_prng tanhZ 1 1 0 0 srcZ 1).get ⟨0, by decide⟩
            = Int.fract (((∑ i, tanhZ (matVec 1 (stateAfter tanhZ 1 1 0 0 srcZ 1).1
                  (stateAfter tanhZ 1 1 0 0 srcZ 1).2 i)) / ((1 : ℚ) * (1 : ℚ))) * 1000)
          ∧ 0 ≤ (hopfield_prng tanhZ 1 1 0 0 srcZ 1).get ⟨0, by decide⟩
          ∧ (hopfield_prng tanhZ 1 1 0 0 srcZ 1).get ⟨0, by decide⟩ < 1) :=
  ⟨by decide, raw_sample_fract_formula tanhZ 1 1 0 0 srcZ 1 0 (by decide)⟩

/-- Claim C6: the weight perturbation adds `delta` to every entry with
`row ≤ col` and subtracts `delta` from every entry with `row > col`, and it
is applied exactly once per output step, before that step's neuron-update
phase (the state evolution of step `k` uses the already-perturbed matrix). -/
theorem perturb_triangular_once_per_step (tanh : ℚ → ℚ) (N L : ℕ)
    (b delta : ℚ) (src : RandomSource N) (k : ℕ) :
    (∀ (T : Fin N → Fin N → ℚ) (i j : Fin N),
        perturb N delta T i j
          = if (i : ℕ) ≤ (j : ℕ) then T i j + delta else T i j - delta)
      ∧ (stateAfter tanh N L b delta src (k + 1)).1
          = perturb N delta (stateAfter tanh N L b delta src k).1
      ∧ (stateAfter tanh N L b delta src (k + 1)).2
          = evolveV tanh N L b (perturb N delta (stateAfter tanh N L b delta src k).1)
              (fun _ => 0) (src.choice k) (stateAfter tanh N L b delta src k).2 := by
  refine ⟨fun T i j => ?_, ?_, ?_⟩
  · by_cases h : (i : ℕ) ≤ (j : ℕ)
    · have h2 : ¬ ((j : ℕ) < (i : ℕ)) := not_lt.mpr h
      simp [perturb, h, h2]
    · have h2 : (j : ℕ) < (i : ℕ) := not_le.mp h
      simp only [perturb, if_neg h, if_pos h2, mul_zero, mul_one]
      ring
  · rw [stateAfter_succ]; rfl
  · rw [stateAfter_succ]; rfl

/-- Claim C8: one sub-iteration of the neuron-update phase, run on a subset drawn
by the sampler collaborator (whose contract gives it exactly
`⌊N / 2⌋ + 1` distinct indices), replaces `state[i]` by
`tanh (b * U i)` exactly for the indices `i` in the subset, where `U` is the
full matrix-vector product minus the external input computed from the
pre-update state, and leaves every other entry identical to its prior
value. -/
theorem subIter_frame_property (tanh : ℚ → ℚ) (N : ℕ) (b : ℚ)
    (T : Fin N → Fin N → ℚ) (Iext : Fin N → ℚ) (idx : Finset (Fin N))
    (V : Fin N → ℚ) (hcard : idx.card = N / 2 + 1) :
    idx.card = N / 2 + 1
      ∧ (∀ i ∈ idx, subIter tanh N b T Iext idx V i
          = tanh (b * (matVec N T V i - Iext i)))
      ∧ (∀ i ∉ idx, subIter tanh N b T Iext idx V i = V i) :=
  ⟨hcard, fun i hi => by simp [subIter, hi], fun i hi => by simp [subIter, hi]⟩

theorem subIter_frame_property_witness :
    (Finset.univ : Finset (Fin 2)).card = 2 / 2 + 1
      ∧ ((Finset.univ : Finset (Fin 2)).card = 2 / 2 + 1
          ∧ (∀ i ∈ (Finset.univ : Finset (Fin 2)),
              subIter tanhZ 2 0 (fun _ _ => 0) (fun _ => 0) Finset.univ (fun _ => 0) i
                = tanhZ (0 * (matVec 2 (fun _ _ => 0) (fun _ => 0) i - 0)))
          ∧ (∀ i ∉ (Finset.univ : Finset (Fin 2)),
              subIter tanhZ 2 0 (fun _ _ => 0) (fun _ => 0) Finset.univ (fun _ => 0) i
                = 0)) :=
  ⟨by decide,
    subIter_frame_property tanhZ 2 0 (fun _ _ => 0) (fun _ => 0) Finset.univ
      (fun _ => 0) (by decide)⟩

/-- Claim C9, counterexample: the source performs no configuration validation:
with `N = 1 < 2` and `num_outputs = 1` the generator returns a batch of
length 1, and with `num_outputs = -1 < 0` it returns the empty batch — in
both cases an output batch is returned and no error is raised, contradicting
the claimed `ConfigurationError`. -/
theorem no_configuration_error_raised :
    hopfield_prng tanhZ 1 1 0 0 srcZ (-1) = []
      ∧ (hopfield_prng tanhZ 1 1 0 0 srcZ 1).length = 1 :=
  ⟨by decide, by decide⟩

/-- Claim C9, amended: the generator performs no configuration validation and
defines no `ConfigurationError`: whenever the injected subset sampler can
honour its contract of `⌊N / 2⌋ + 1` distinct indices per draw (which
requires `N ≥ 1`, so this covers `N = 1 < 2`, every `L < 1` and every
`num_outputs < 0`, but not `N = 0`, where the sampler collaborator itself
fails), the generator runs and returns a batch of length
`max num_outputs 0` — empty for `num_outputs ≤ 0` — instead of raising at
construction. -/
theorem hopfield_no_configuration_error (tanh : ℚ → ℚ) (N L : ℕ)
    (b delta : ℚ) (src : RandomSource N) (n : ℤ)
    (_hchoice : ∀ k l, (src.choice k l).card = N / 2 + 1) :
    (hopfield_prng tanh N L b delta src n).length = n.toNat
      ∧ (n ≤ 0 → hopfield_prng tanh N L b delta src n = []) := by
  refine ⟨length_hopfield_prng .., fun hn => ?_⟩
  simp [hopfield_prng, Int.toNat_of_nonpos hn]

theorem hopfield_no_configuration_error_witness :
    (∀ k l, (srcZ.choice k l).card = 1 / 2 + 1)
      ∧ ((hopfield_prng tanhZ 1 1 0 0 srcZ (-1)).length = (-1 : ℤ).toNat
          ∧ ((-1 : ℤ) ≤ 0 → hopfield_prng tanhZ 1 1 0 0 srcZ (-1) = [])) :=
  ⟨fun _ _ => rfl,
    hopfield_no_configuration_error tanhZ 1 1 0 0 srcZ (-1) (fun _ _ => rfl)⟩

/-- Claim C10: the serializer encodes each raw sample `v ∈ [0, 1)` as exactly the
4 big-endian bytes of `⌊v * 10^9⌋`, concatenated in sample order, and
big-endian-decoding the `i`-th 4-byte block reproduces `⌊v_i * 10^9⌋`
exactly. -/
theorem serialize_roundtrip (batch : List ℚ) (hv : ∀ v ∈ batch, 0 ≤ v ∧ v < 1)
    (i : ℕ) (hi : i < batch.length) :
    (serializeBatch batch).length = 4 * batch.length
      ∧ ((serializeBatch batch).drop (4 * i)).take 4
          = toBytesBE4 (⌊batch.get ⟨i, hi⟩ * 10 ^ 9⌋).toNat
      ∧ (fromBytesBE (((serializeBatch batch).drop (4 * i)).take 4) : ℤ)
          = ⌊batch.get ⟨i, hi⟩ * 10 ^ 9⌋ := by
  obtain ⟨h0, h1⟩ := hv (batch.get ⟨i, hi⟩) (batch.get_mem i hi)
  have hnn : (0 : ℚ) ≤ batch.get ⟨i, hi⟩ * 10 ^ 9 := by positivity
  have htr : truncToInt (batch.get ⟨i, hi⟩ * 10 ^ 9) = ⌊batch.get ⟨i, hi⟩ * 10 ^ 9⌋ :=
    truncToInt_of_nonneg _ hnn
  have hfl0 : 0 ≤ ⌊batch.get ⟨i, hi⟩ * 10 ^ 9⌋ := Int.floor_nonneg.mpr hnn
  have hflt : ⌊batch.get ⟨i, hi⟩ * 10 ^ 9⌋ < 10 ^ 9 := by
    rw [Int.floor_lt]
    push_cast
    nlinarith
  have hN : (⌊batch.get ⟨i, hi⟩ * 10 ^ 9⌋).toNat < 2 ^ 32 := by omega
  refine ⟨length_serializeBatch batch, ?_, ?_⟩
  · rw [serializeBatch_block batch i hi, htr]
  · rw [serializeBatch_block batch i hi, htr, fromBytesBE_toBytesBE4 _ hN,
        Int.toNat_of_nonneg hfl0]

theorem serialize_roundtrip_witness :
    (∀ v ∈ [(0 : ℚ)], 0 ≤ v ∧ v < 1)
      ∧ 0 < [(0 : ℚ)].length
      ∧ ((serializeBatch [(0 : ℚ)]).length = 4 * [(0 : ℚ)].length
          ∧ ((serializeBatch [(0 : ℚ)]).drop (4 * 0)).take 4
              = toBytesBE4 (⌊[(0 : ℚ)].get ⟨0, by decide⟩ * 10 ^ 9⌋).toNat
          ∧ (fromBytesBE (((serializeBatch [(0 : ℚ)]).drop (4 * 0)).take 4) : ℤ)
              = ⌊[(0 : ℚ)].get ⟨0, by decide⟩ * 10 ^ 9⌋) :=
  ⟨by simp, by decide, serialize_roundtrip [(0 : ℚ)] (by simp) 0 (by decide)⟩

/-- Claim C1, counterexample: with a 32-byte digest, requesting `num_outputs = 9`
conditioned values returns a sequence of length 8, not 9: the output is
silently truncated by `[:num_outputs]`. -/
theorem hop_sha_truncates_at_eight :
    (hopfield_sha_prng shaZ tanhZ 1 1 0 0 srcZ 9).length ≠ 9 := by decide

/-- Claim C1, amended: for every non-negative `num_outputs` the conditioned
generator returns exactly `min num_outputs 8` values: at most the 8 values
extractable from one 32-byte digest, silently capped with no error. -/
theorem hop_sha_length_min (sha256 : List ℕ → List ℕ) (tanh : ℚ → ℚ)
    (N L : ℕ) (b delta : ℚ) (src : RandomSource N) (n : ℤ) (hn : 0 ≤ n)
    (hsha : (sha256 (serializeBatch (hopfield_prng tanh N L b delta src n))).length = 32) :
    (hopfield_sha_prng sha256 tanh N L b delta src n).length = min n.toNat 8 := by
  simp only [hopfield_sha_prng, conditionDigest, pySlice, hsha, if_pos hn]
  simp

theorem hop_sha_length_min_witness :
    0 ≤ (9 : ℤ)
      ∧ (shaZ (serializeBatch (hopfield_prng tanhZ 1 1 0 0 srcZ 9))).length = 32
      ∧ (hopfield_sha_prng shaZ tanhZ 1 1 0 0 srcZ 9).length = min (9 : ℤ).toNat 8 :=
  ⟨by decide, by decide,
    hop_sha_length_min shaZ tanhZ 1 1 0 0 srcZ 9 (by decide) (by decide)⟩

/-- Claim C2: for every non-negative `num_outputs`, the conditioned generator
splits the 32-byte digest into eight 4-byte big-endian unsigned integers,
normalizes each by `2^32`, and truncates the list with `[:num_outputs]` —
so any request for more than 8 outputs is capped at 8 with no error. -/
theorem hop_sha_eq_digest_take (sha256 : List ℕ → List ℕ) (tanh : ℚ → ℚ)
    (N L : ℕ) (b delta : ℚ) (src : RandomSource N) (n : ℤ) (hn : 0 ≤ n)
    (hsha : (sha256 (serializeBatch (hopfield_prng tanh N L b delta src n))).length = 32) :
    hopfield_sha_prng sha256 tanh N L b delta src n
      = ((List.range 8).map fun i =>
          (fromBytesBE (((sha256 (serializeBatch (hopfield_prng tanh N L b delta src n))).drop
              (4 * i)).take 4) : ℚ) / 2 ^ 32).take n.toNat
      ∧ (hopfield_sha_prng sha256 tanh N L b delta src n).length = min n.toNat 8 := by
  constructor
  · simp only [hopfield_sha_prng, conditionDigest, pySlice, hsha, if_pos hn]
  · simp only [hopfield_sha_prng, conditionDigest, pySlice, hsha, if_pos hn]
    simp

theorem hop_sha_eq_digest_take_witness :
    0 ≤ (2 : ℤ)
      ∧ (shaZ (serializeBatch (hopfield_prng tanhZ 1 1 0 0 srcZ 2))).length = 32
      ∧ (hopfield_sha_prng shaZ tanhZ 1 1 0 0 srcZ 2
          = ((List.range 8).map fun i =>
              (fromBytesBE (((shaZ (serializeBatch (hopfield_prng tanhZ 1 1 0 0 srcZ 2))).drop
                  (4 * i)).take 4) : ℚ) / 2 ^ 32).take (2 : ℤ).toNat
          ∧ (hopfield_sha_prng shaZ tanhZ 1 1 0 0 srcZ 2).length = min (2 : ℤ).toNat 8) :=
  ⟨by decide, by decide,
    hop_sha_eq_digest_take shaZ tanhZ 1 1 0 0 srcZ 2 (by decide) (by decide)⟩

/-- Claim C4: every element of the conditioned output batch lies in `[0, 1)`:
each 4-byte big-endian unsigned integer taken from the digest (whose bytes
are below 256) is at least 0 and, divided by `2^32`, strictly less than 1. -/
theorem hop_sha_outputs_in_unit (sha256 : List ℕ → List ℕ) (tanh : ℚ → ℚ)
    (N L : ℕ) (b delta : ℚ) (src : RandomSource N) (n : ℤ)
    (hsha : ∀ y ∈ sha256 (serializeBatch (hopfield_prng tanh N L b delta src n)), y < 256) :
    ∀ x ∈ hopfield_sha_prng sha256 tanh N L b delta src n, 0 ≤ x ∧ x < 1 := by
  intro x hx
  simp only [hopfield_sha_prng, conditionDigest, pySlice] at hx
  have hx2 : x ∈ (List.range
      (((sha256 (serializeBatch (hopfield_prng tanh N L b delta src n))).length + 3) / 4)).map
        fun i => (fromBytesBE (((sha256 (serializeBatch
            (hopfield_prng tanh N L b delta src n))).drop (4 * i)).take 4) : ℚ) / 2 ^ 32 := by
    by_cases h0 : (0 : ℤ) ≤ n
    · rw [if_pos h0] at hx
      exact List.take_subset _ _ hx
    · rw [if_neg h0] at hx
      exact List.take_subset _ _ hx
  obtain ⟨i, -, rfl⟩ := List.mem_map.mp hx2
  constructor
  · positivity
  · rw [div_lt_one (by positivity)]
    set chunk := ((sha256 (serializeBatch
        (hopfield_prng tanh N L b delta src n))).drop (4 * i)).take 4 with hchunk
    have hbytes : ∀ y ∈ chunk, y < 256 := fun y hy =>
      hsha y (List.drop_subset _ _ (List.take_subset _ _ hy))
    have hlen : chunk.length ≤ 4 := by
      rw [hchunk, List.length_take]
      omega
    have hlt : fromBytesBE chunk < 256 ^ 4 :=
      lt_of_lt_of_le (fromBytesBE_lt chunk hbytes)
        (Nat.pow_le_pow_right (by norm_num) hlen)
    have hq : (fromBytesBE chunk : ℚ) < ((256 ^ 4 : ℕ) : ℚ) := by
      exact_mod_cast hlt
    calc (fromBytesBE chunk : ℚ) < ((256 ^ 4 : ℕ) : ℚ) := hq
      _ = 2 ^ 32 := by norm_num

theorem hop_sha_outputs_in_unit_witness :
    (∀ y ∈ shaZ (serializeBatch (hopfield_prng tanhZ 1 1 0 0 srcZ 1)), y < 256)
      ∧ (∀ x ∈ hopfield_sha_prng shaZ tanhZ 1 1 0 0 srcZ 1, 0 ≤ x ∧ x < 1) :=
  ⟨by decide, hop_sha_outputs_in_unit shaZ tanhZ 1 1 0 0 srcZ 1 (by decide)⟩

lemma triDiff_eq_sum (N : ℕ) (T : Fin N → Fin N → ℚ) :
    triDiff N T = ∑ p : Fin N × Fin N,
      ((if (p.1 : ℕ) ≤ (p.2 : ℕ) then T p.1 p.2 else 0)
        - (if (p.2 : ℕ) < (p.1 : ℕ) then T p.1 p.2 else 0)) := by
  unfold triDiff upperSum lowerSum
  rw [Finset.sum_sub_distrib]

lemma triDiff_perturb (N : ℕ) (delta : ℚ) (T : Fin N → Fin N → ℚ) :
    triDiff N (perturb N delta T) = triDiff N T + delta * (N : ℚ) ^ 2 := by
  rw [triDiff_eq_sum, triDiff_eq_sum]
  have key : ∀ p : Fin N × Fin N,
      ((if (p.1 : ℕ) ≤ (p.2 : ℕ) then perturb N delta T p.1 p.2 else 0)
        - (if (p.2 : ℕ) < (p.1 : ℕ) then perturb N delta T p.1 p.2 else 0))
      = ((if (p.1 : ℕ) ≤ (p.2 : ℕ) then T p.1 p.2 else 0)
          - (if (p.2 : ℕ) < (p.1 : ℕ) then T p.1 p.2 else 0)) + delta := by
    intro p
    by_cases h : (p.1 : ℕ) ≤ (p.2 : ℕ)
    · have h2 : ¬ ((p.2 : ℕ) < (p.1 : ℕ)) := not_lt.mpr h
      simp [perturb, h, h2]
    · have h2 : (p.2 : ℕ) < (p.1 : ℕ) := not_le.mp h
      simp only [perturb, if_neg h, if_pos h2, mul_zero, mul_one]
      ring
  rw [Finset.sum_congr rfl fun p _ => key p, Finset.sum_add_distrib,
      Finset.sum_const, Finset.card_univ]
  push_cast [Fintype.card_prod, Fintype.card_fin, nsmul_eq_mul]
  ring

/-- Claim C7, counterexample: with `N = 2`, `delta = 1` and `k = 1`, the sum of
the `row ≤ col` entries minus the sum of the `row > col` entries grows by
`delta * N^2 = 4`, not by the claimed `k * delta * N = 2`. -/
theorem triDiff_claimed_rate_false :
    triDiff 2 (stateAfter tanhZ 2 1 0 1 srcZ2 1).1
      ≠ triDiff 2 (stateAfter tanhZ 2 1 0 1 srcZ2 0).1 + (1 : ℚ) * 1 * 2 := by
  have h1 := stateAfter_succ tanhZ 2 1 0 1 srcZ2 0
  rw [zero_add] at h1
  rw [h1]
  rw [show (stepTV tanhZ 2 1 0 1 srcZ2 (stateAfter tanhZ 2 1 0 1 srcZ2 0) 0).1
        = perturb 2 1 (stateAfter tanhZ 2 1 0 1 srcZ2 0).1 from rfl]
  rw [triDiff_perturb]
  intro h
  have h2 := add_left_cancel h
  norm_num at h2

/-- Claim C7, amended: after `k` perturbation steps the sum of the `row ≤ col`
entries minus the sum of the `row > col` entries has increased relative to
the initial matrix by exactly `k * delta * (count of row ≤ col cells +
count of row > col cells)`, i.e. by exactly `k * delta * N^2`. -/
theorem triDiff_growth_amended (tanh : ℚ → ℚ) (N L : ℕ) (b delta : ℚ)
    (src : RandomSource N) (k : ℕ) :
    triDiff N (stateAfter tanh N L b delta src k).1
      = triDiff N (stateAfter tanh N L b delta src 0).1
          + (k : ℚ) * delta * (N : ℚ) ^ 2 := by
  induction k with
  | zero => simp
  | succ k ih =>
    have h1 : (stateAfter tanh N L b delta src (k + 1)).1
        = perturb N delta (stateAfter tanh N L b delta src k).1 := by
      rw [stateAfter_succ]
      rfl
    rw [h1, triDiff_perturb, ih]
    push_cast
    ring

end RandomNumber
